import Mathlib

/-!
Verification of the Minesweeper AI inference engine (`minesweeper.py`).

The Python source is shallowly embedded: Python `set`s of cells become
`Finset (Int × Int)`, the mutable `Sentence` objects become values of a
`Sentence` structure, and the mutable `MinesweeperAI` object becomes a
`MinesweeperAI` state record threaded explicitly through the operations.
Python `int`s are `Int`.
-/

/-- A board cell `(row, column)`, a pair of Python ints. -/
abbrev Cell := Int × Int

/-- Embeds class `Sentence`: a set of board cells together with a count of
how many of those cells are mines.  Python `__eq__` is value equality on
both fields, which coincides with structure equality here. -/
structure Sentence where
  cells : Finset Cell
  count : Int

/-- Value equality of sentences (Python `__eq__`), decided field by field.
Stated through `decidable_of_iff` so that deciding it reduces even when two
equal cell sets have different underlying representatives. -/
instance : DecidableEq Sentence := fun a b =>
  decidable_of_iff (a.cells = b.cells ∧ a.count = b.count)
    ⟨fun h => by cases a; cases b; cases h.1; cases h.2; rfl,
     fun h => by cases h; exact ⟨rfl, rfl⟩⟩

namespace Sentence

/-- Embeds `Sentence.known_mines`: if the number of remaining cells equals
the mine count, return all cells, else the empty set. -/
def known_mines (S : Sentence) : Finset Cell :=
  if (S.cells.card : Int) = S.count then S.cells else ∅

/-- Embeds `Sentence.known_safes`: if the count is 0, return all cells,
else the empty set. -/
def known_safes (S : Sentence) : Finset Cell :=
  if S.count = 0 then S.cells else ∅

/-- Embeds `Sentence.mark_mine`: if the cell is in the sentence, remove it
and decrement the count by 1; otherwise do nothing. -/
def mark_mine (S : Sentence) (c : Cell) : Sentence :=
  if c ∈ S.cells then ⟨S.cells.erase c, S.count - 1⟩ else S

/-- Embeds `Sentence.mark_safe`: if the cell is in the sentence, remove it
(count unchanged); otherwise do nothing. -/
def mark_safe (S : Sentence) (c : Cell) : Sentence :=
  if c ∈ S.cells then ⟨S.cells.erase c, S.count⟩ else S

end Sentence

/-- Embeds the mutable state of class `MinesweeperAI`. -/
structure MinesweeperAI where
  height : Nat
  width : Nat
  moves_made : Finset Cell
  mines : Finset Cell
  safes : Finset Cell
  knowledge : List Sentence

/-- Embeds `MinesweeperAI.__init__`. -/
def initAI (height width : Nat) : MinesweeperAI :=
  ⟨height, width, ∅, ∅, ∅, []⟩

namespace MinesweeperAI

/-- Embeds `MinesweeperAI.mark_mine`: add the cell to `mines` and call
`Sentence.mark_mine` on every sentence in `knowledge`. -/
def mark_mine (st : MinesweeperAI) (c : Cell) : MinesweeperAI :=
  { st with mines := insert c st.mines,
            knowledge := st.knowledge.map (fun S => S.mark_mine c) }

/-- Embeds `MinesweeperAI.mark_safe`: add the cell to `safes` and call
`Sentence.mark_safe` on every sentence in `knowledge`. -/
def mark_safe (st : MinesweeperAI) (c : Cell) : MinesweeperAI :=
  { st with safes := insert c st.safes,
            knowledge := st.knowledge.map (fun S => S.mark_safe c) }

instance : RightCommutative mark_mine where
  right_comm := by
    intro st c c'
    unfold mark_mine
    simp only [List.map_map, mk.injEq]
    refine ⟨trivial, trivial, trivial, Finset.Insert.comm c' c st.mines, trivial, ?_⟩
    apply List.map_congr_left
    intro S _
    simp only [Function.comp_apply]
    by_cases h : c = c'
    · subst h
      rfl
    · by_cases hc : c ∈ S.cells <;> by_cases hc' : c' ∈ S.cells <;>
        simp [Sentence.mark_mine, hc, hc', Finset.mem_erase, h, Ne.symm h]
      rw [Finset.erase_right_comm]

instance : RightCommutative mark_safe where
  right_comm := by
    intro st c c'
    unfold mark_safe
    simp only [List.map_map, mk.injEq]
    refine ⟨trivial, trivial, trivial, trivial, Finset.Insert.comm c' c st.safes, ?_⟩
    apply List.map_congr_left
    intro S _
    simp only [Function.comp_apply]
    by_cases h : c = c'
    · subst h
      rfl
    · by_cases hc : c ∈ S.cells <;> by_cases hc' : c' ∈ S.cells <;>
        simp [Sentence.mark_safe, hc, hc', Finset.mem_erase, h, Ne.symm h]
      rw [Finset.erase_right_comm]

/-- Iterating `self.mark_mine` over each element of a Python set of cells
(`for mine in mines: self.mark_mine(mine)`); as a Python set its iteration
order is unspecified, which the multiset fold captures (marking different
cells commutes). -/
def mark_mines_of (st : MinesweeperAI) (m : Finset Cell) : MinesweeperAI :=
  Multiset.foldl mark_mine st m.1

/-- Iterating `self.mark_safe` over each element of a Python set of cells. -/
def mark_safes_of (st : MinesweeperAI) (m : Finset Cell) : MinesweeperAI :=
  Multiset.foldl mark_safe st m.1

end MinesweeperAI

/-- The bound-and-not-self condition checked inside the neighbor loops of
`MinesweeperAI.return_neighbors`:
`y >= 0 and y < self.height and x >= 0 and x < self.width and (y, x) != (i, j)`. -/
def nbCond (height width : Nat) (c p : Cell) : Prop :=
  0 ≤ p.1 ∧ p.1 < (height : Int) ∧ 0 ≤ p.2 ∧ p.2 < (width : Int) ∧ p ≠ c

instance (height width : Nat) (c p : Cell) : Decidable (nbCond height width c p) :=
  inferInstanceAs (Decidable
    (0 ≤ p.1 ∧ p.1 < (height : Int) ∧ 0 ≤ p.2 ∧ p.2 < (width : Int) ∧ p ≠ c))

/-- The nine candidate cells visited by the two nested loops
`for y in range(i-1, i+2): for x in range(j-1, j+2)`, in loop order. -/
def nbCands (c : Cell) : List Cell :=
  [(c.1 - 1, c.2 - 1), (c.1 - 1, c.2), (c.1 - 1, c.2 + 1),
   (c.1, c.2 - 1), (c.1, c.2), (c.1, c.2 + 1),
   (c.1 + 1, c.2 - 1), (c.1 + 1, c.2), (c.1 + 1, c.2 + 1)]

namespace MinesweeperAI

/-- Embeds `MinesweeperAI.return_neighbors`: accumulate the in-bounds
neighbors of `cell` into a set, counting along the way how many of them are
already in `self.mines`. -/
def return_neighbors (st : MinesweeperAI) (c : Cell) : Finset Cell × Int :=
  (nbCands c).foldl
    (fun acc p =>
      if nbCond st.height st.width c p then
        (insert p acc.1, acc.2 + (if p ∈ st.mines then 1 else 0))
      else acc)
    (∅, 0)

/-- Embeds the first part of `MinesweeperAI.add_knowledge` (its lines up to
the first `for` loop): record the move, mark the cell safe, and append the
new sentence over the undetermined neighbors unless it is empty or already
present. -/
def add_knowledge_base (st : MinesweeperAI) (cell : Cell) (count : Int) : MinesweeperAI :=
  let st1 : MinesweeperAI := { st with moves_made := insert cell st.moves_made }
  let st2 := st1.mark_safe cell
  let p := st2.return_neighbors cell
  let unknown := (p.1 \ st2.mines) \ st2.safes
  if unknown = ∅ then st2
  else
    let ns : Sentence := ⟨unknown, count - p.2⟩
    if ns ∈ st2.knowledge then st2
    else { st2 with knowledge := st2.knowledge ++ [ns] }

/-- One iteration of the first `for sentence in self.knowledge` loop of
`add_knowledge` at list index `i`: mark every cell of the sentence's
`known_mines()` snapshot as a mine, then every cell of the (now possibly
mutated) sentence's `known_safes()` snapshot as safe.  The Python guards
`mines != set() and mines not in self.mines` reduce to iterating the
snapshot: folding over an empty set is the identity, and the membership
test compares a set of cells against single cells, which never matches. -/
def step5_at (st : MinesweeperAI) (i : Nat) : MinesweeperAI :=
  match st.knowledge[i]? with
  | none => st
  | some s =>
    let st1 := st.mark_mines_of s.known_mines
    match st1.knowledge[i]? with
    | none => st1
    | some s1 => st1.mark_safes_of s1.known_safes

/-- The first `for sentence in self.knowledge` loop of `add_knowledge`.
Marking never changes the list's length, so the loop visits exactly the
indices `0, ..., length - 1`, reading each sentence as mutated so far. -/
def step5 (st : MinesweeperAI) : MinesweeperAI :=
  (List.range st.knowledge.length).foldl step5_at st

/-- The nested `for sentence in self.knowledge: for sentence2 in
self.knowledge` loops at the end of `add_knowledge`, as an indexed worklist:
`i` is the outer position and `j` the inner one.  Python list iteration also
reaches elements appended during the loop, which the index bounds against
the current list capture; `fuel` bounds the number of loop steps (the Python
loop may diverge on inconsistent counts, and any concrete run below is
checked with fuel large enough that the loop finishes). -/
def step6_aux : Nat → MinesweeperAI → Nat → Nat → MinesweeperAI
  | 0, st, _, _ => st
  | fuel + 1, st, i, j =>
    if hi : i < st.knowledge.length then
      let s := st.knowledge.get ⟨i, hi⟩
      if s.cells = ∅ then
        step6_aux fuel st (i + 1) 0
      else if hj : j < st.knowledge.length then
        let s2 := st.knowledge.get ⟨j, hj⟩
        let st' :=
          if s2 = s then st
          else if s2.cells = ∅ then st
          else if s.cells ⊆ s2.cells then
            let r : Sentence := ⟨(s2.cells \ s.cells) \ st.moves_made, s2.count - s.count⟩
            if r ∈ st.knowledge then st
            else { st with knowledge := st.knowledge ++ [r] }
          else st
        step6_aux fuel st' i (j + 1)
      else
        step6_aux fuel st (i + 1) 0
    else st

/-- The subset-inference loops of `add_knowledge`, started at the first
outer and inner positions. -/
def step6 (fuel : Nat) (st : MinesweeperAI) : MinesweeperAI :=
  step6_aux fuel st 0 0

/-- Embeds `MinesweeperAI.add_knowledge` as the composition of its three
phases. -/
def add_knowledge (fuel : Nat) (st : MinesweeperAI) (cell : Cell) (count : Int) :
    MinesweeperAI :=
  step6 fuel (step5 (add_knowledge_base st cell count))

end MinesweeperAI

/-- Feeding a list of observations `(cell, count)` to the agent in order. -/
def runAI (fuel : Nat) (st : MinesweeperAI) (obs : List (Cell × Int)) : MinesweeperAI :=
  obs.foldl (fun s p => MinesweeperAI.add_knowledge fuel s p.1 p.2) st

/-- Combining step used to select one element out of a Python set iteration
(`for safe in self.safes: ...` / `random.sample(remainingChoice, 1)`): the
iteration order of a Python set is unspecified, so the model keeps the
lexicographically least candidate, a canonical choice among the valid ones. -/
def pickStep (acc : Option Cell) (c : Cell) : Option Cell :=
  match acc with
  | none => some c
  | some d => if c.1 < d.1 ∨ (c.1 = d.1 ∧ c.2 ≤ d.2) then some c else some d

instance : RightCommutative pickStep where
  right_comm := by
    rintro (_ | ⟨d1, d2⟩) ⟨a1, a2⟩ ⟨b1, b2⟩ <;>
      simp only [pickStep] <;>
      (try split_ifs) <;>
      (try simp only [pickStep]) <;>
      (try split_ifs) <;>
      first
      | rfl
      | (simp only [Option.some.injEq, Prod.mk.injEq]; omega)

/-- Select an (arbitrary, here: canonical) element of a Python set of
cells, or `none` if the set is empty. -/
def pickCell (s : Finset Cell) : Option Cell :=
  Multiset.foldl pickStep none s.1

/-- The set of all grid cells, built like the nested loops of
`make_random_move` (`for i in range(0, self.height): for j in range(0,
self.width): remainingChoice.add((i, j))`). -/
def allCells (height width : Nat) : Finset Cell :=
  ((Finset.range height) ×ˢ (Finset.range width)).image
    (fun p => ((p.1 : Int), (p.2 : Int)))

namespace MinesweeperAI

/-- Embeds `MinesweeperAI.make_safe_move`: return a cell of `self.safes`
not in `self.moves_made`, or `None` if there is none.  Reads only
`self.safes` and `self.moves_made` and returns just the optional cell, so
it cannot mutate the state. -/
def make_safe_move (st : MinesweeperAI) : Option Cell :=
  pickCell (st.safes \ st.moves_made)

/-- Embeds `MinesweeperAI.make_random_move`: return a cell from `{all grid
cells} - moves_made - mines`, or `None` if that set is empty. -/
def make_random_move (st : MinesweeperAI) : Option Cell :=
  pickCell ((allCells st.height st.width \ st.moves_made) \ st.mines)

end MinesweeperAI

/-- A mutating agent operation: the public entry point `add_knowledge` or a
direct `mark_mine` / `mark_safe` call. -/
inductive AgentOp where
  | addKnowledge (cell : Cell) (count : Int)
  | markMine (cell : Cell)
  | markSafe (cell : Cell)

/-- Apply one agent operation to a state. -/
def applyOp (fuel : Nat) (st : MinesweeperAI) : AgentOp → MinesweeperAI
  | AgentOp.addKnowledge c n => MinesweeperAI.add_knowledge fuel st c n
  | AgentOp.markMine c => st.mark_mine c
  | AgentOp.markSafe c => st.mark_safe c

/-- Apply a sequence of agent operations from left to right. -/
def runOps (fuel : Nat) (st : MinesweeperAI) (ops : List AgentOp) : MinesweeperAI :=
  ops.foldl (applyOp fuel) st

/-- The neighbor set of a cell depends only on the grid shape. -/
def neighborsOf (height width : Nat) (c : Cell) : Finset Cell :=
  ((initAI height width).return_neighbors c).1

/-- An observation `(cell, count)` is consistent with the board `bd` (the
set of true mine cells) on the given grid: the revealed cell is truly safe
and the count is the true number of mined neighbors, as the game's
`nearby_mines` computes it. -/
def ConsistentObs (bd : Finset Cell) (height width : Nat) (p : Cell × Int) : Prop :=
  p.1 ∉ bd ∧ p.2 = (((neighborsOf height width p.1).filter (· ∈ bd)).card : Int)

instance (bd : Finset Cell) (height width : Nat) (p : Cell × Int) :
    Decidable (ConsistentObs bd height width p) :=
  inferInstanceAs (Decidable (p.1 ∉ bd ∧
    p.2 = (((neighborsOf height width p.1).filter (· ∈ bd)).card : Int)))

/-- One state evolves into another: the global sets only grow, the grid
shape is fixed, and the knowledge list only gains entries while existing
entries only lose cells (they are mutated in place, never replaced). -/
def Evolves (st st' : MinesweeperAI) : Prop :=
  st'.height = st.height ∧ st'.width = st.width ∧
  st.moves_made ⊆ st'.moves_made ∧ st.mines ⊆ st'.mines ∧ st.safes ⊆ st'.safes ∧
  st.knowledge.length ≤ st'.knowledge.length ∧
  ∀ (i : Nat) (S : Sentence), st.knowledge[i]? = some S →
    ∃ S' : Sentence, st'.knowledge[i]? = some S' ∧ S'.cells ⊆ S.cells

/-- Soundness invariant of the agent state with respect to the true board
`bd` (the set of mine cells): the marked mines are true mines, the marked
safes are truly safe, every move was marked safe, and every sentence is
true (its count is the number of true mines among its cells) and mentions
no already-marked cell. -/
def Sound (bd : Finset Cell) (st : MinesweeperAI) : Prop :=
  st.mines ⊆ bd ∧
  (∀ c ∈ st.safes, c ∉ bd) ∧
  st.moves_made ⊆ st.safes ∧
  ∀ S ∈ st.knowledge,
    (∀ c ∈ S.cells, c ∉ st.mines ∧ c ∉ st.safes) ∧
    S.count = (((S.cells ∩ bd)).card : Int)

namespace Sentence

theorem known_mines_eq_of_card (S : Sentence) (h : (S.cells.card : Int) = S.count) :
    S.known_mines = S.cells := by
  simp [known_mines, h]

theorem known_mines_eq_empty (S : Sentence) (h : (S.cells.card : Int) ≠ S.count) :
    S.known_mines = ∅ := by
  simp [known_mines, h]

theorem known_safes_eq_of_count (S : Sentence) (h : S.count = 0) :
    S.known_safes = S.cells := by
  simp [known_safes, h]

theorem known_safes_eq_empty (S : Sentence) (h : S.count ≠ 0) :
    S.known_safes = ∅ := by
  simp [known_safes, h]

end Sentence

/-- C1: `known_mines` returns exactly `S.cells` when `|S.cells| = S.count` and
the empty set otherwise; `known_safes` returns exactly `S.cells` when
`S.count = 0` and the empty set otherwise; in particular any degenerate count
(negative, or exceeding `|S.cells|`) makes both return the empty set. -/
theorem claim_C1_known_mines_known_safes (S : Sentence) :
    ((S.cells.card : Int) = S.count → S.known_mines = S.cells) ∧
    ((S.cells.card : Int) ≠ S.count → S.known_mines = ∅) ∧
    (S.count = 0 → S.known_safes = S.cells) ∧
    (S.count ≠ 0 → S.known_safes = ∅) ∧
    (S.count < 0 ∨ (S.cells.card : Int) < S.count →
      S.known_mines = ∅ ∧ S.known_safes = ∅) := by
  refine ⟨S.known_mines_eq_of_card, S.known_mines_eq_empty,
    S.known_safes_eq_of_count, S.known_safes_eq_empty, fun h => ⟨?_, ?_⟩⟩
  · exact S.known_mines_eq_empty (by omega)
  · exact S.known_safes_eq_empty (by omega)

/-- Witness for C1 at the degenerate sentence `{(0,0)} = 2`. -/
theorem claim_C1_witness :
    Sentence.known_mines ⟨{((0 : Int), (0 : Int))}, 2⟩ = ∅ ∧
    Sentence.known_safes ⟨{((0 : Int), (0 : Int))}, 2⟩ = ∅ :=
  (claim_C1_known_mines_known_safes ⟨{((0 : Int), (0 : Int))}, 2⟩).2.2.2.2
    (Or.inr (by simp))

/-- C7: on a sentence containing `c`, `mark_mine` removes `c` and decrements
the count by exactly 1 while `mark_safe` removes `c` leaving the count
unchanged, each shrinking the cell set's cardinality by exactly 1; on a
sentence not containing `c` both are the identity, so repeating either call
after the removal is a no-op. -/
theorem claim_C7_mark_mine_mark_safe (S : Sentence) (c : Cell) :
    (c ∈ S.cells →
      (S.mark_mine c).cells = S.cells.erase c ∧
      (S.mark_mine c).count = S.count - 1 ∧
      (S.mark_safe c).cells = S.cells.erase c ∧
      (S.mark_safe c).count = S.count ∧
      (S.mark_mine c).cells.card = S.cells.card - 1 ∧
      (S.mark_safe c).cells.card = S.cells.card - 1) ∧
    (c ∉ S.cells → S.mark_mine c = S ∧ S.mark_safe c = S) ∧
    ((S.mark_mine c).mark_mine c = S.mark_mine c ∧
      (S.mark_mine c).mark_safe c = S.mark_mine c ∧
      (S.mark_safe c).mark_safe c = S.mark_safe c ∧
      (S.mark_safe c).mark_mine c = S.mark_safe c) := by
  refine ⟨fun h => ?_, fun h => ?_, ?_⟩
  · simp [Sentence.mark_mine, Sentence.mark_safe, h, Finset.card_erase_of_mem]
  · simp [Sentence.mark_mine, Sentence.mark_safe, h]
  · by_cases h : c ∈ S.cells <;>
      simp [Sentence.mark_mine, Sentence.mark_safe, h]

/-- Witness for C7 at the sentence `{(0,0)} = 1` and the cell `(0,0)`. -/
theorem claim_C7_witness :
    ((0 : Int), (0 : Int)) ∈ (⟨{((0 : Int), (0 : Int))}, 1⟩ : Sentence).cells ∧
    ((Sentence.mark_mine ⟨{((0 : Int), (0 : Int))}, 1⟩ ((0 : Int), (0 : Int))).cells =
        Finset.erase {((0 : Int), (0 : Int))} ((0 : Int), (0 : Int)) ∧
      (Sentence.mark_mine ⟨{((0 : Int), (0 : Int))}, 1⟩ ((0 : Int), (0 : Int))).count = 1 - 1 ∧
      (Sentence.mark_safe ⟨{((0 : Int), (0 : Int))}, 1⟩ ((0 : Int), (0 : Int))).cells =
        Finset.erase {((0 : Int), (0 : Int))} ((0 : Int), (0 : Int)) ∧
      (Sentence.mark_safe ⟨{((0 : Int), (0 : Int))}, 1⟩ ((0 : Int), (0 : Int))).count = 1 ∧
      (Sentence.mark_mine ⟨{((0 : Int), (0 : Int))}, 1⟩ ((0 : Int), (0 : Int))).cells.card =
        (Finset.card {((0 : Int), (0 : Int))}) - 1 ∧
      (Sentence.mark_safe ⟨{((0 : Int), (0 : Int))}, 1⟩ ((0 : Int), (0 : Int))).cells.card =
        (Finset.card {((0 : Int), (0 : Int))}) - 1) :=
  ⟨by decide, (claim_C7_mark_mine_mark_safe ⟨{((0 : Int), (0 : Int))}, 1⟩
    ((0 : Int), (0 : Int))).1 (by decide)⟩

theorem pickStep_ne_none (acc : Option Cell) (c : Cell) : pickStep acc c ≠ none := by
  rcases acc with _ | d
  · simp [pickStep]
  · simp only [pickStep]
    split_ifs <;> simp

theorem pickFold_ne_none (m : Multiset Cell) (acc : Option Cell) (h : acc ≠ none) :
    Multiset.foldl pickStep acc m ≠ none := by
  induction m using Multiset.induction_on generalizing acc with
  | empty => simpa using h
  | cons a m ih =>
    rw [Multiset.foldl_cons]
    exact ih (pickStep acc a) (pickStep_ne_none acc a)

theorem pickFold_mem (m : Multiset Cell) (acc : Option Cell) (c : Cell)
    (h : Multiset.foldl pickStep acc m = some c) : acc = some c ∨ c ∈ m := by
  induction m using Multiset.induction_on generalizing acc with
  | empty => simp at h; exact Or.inl (by rw [h])
  | cons a m ih =>
    rw [Multiset.foldl_cons] at h
    rcases ih (pickStep acc a) h with h1 | h2
    · rcases acc with _ | d
      · simp only [pickStep, Option.some.injEq] at h1
        exact Or.inr (by simp [h1])
      · simp only [pickStep] at h1
        split_ifs at h1 <;> simp only [Option.some.injEq] at h1
        · exact Or.inr (by simp [h1])
        · exact Or.inl (by rw [h1])
    · exact Or.inr (Multiset.mem_cons_of_mem h2)

theorem pickCell_eq_none_iff (s : Finset Cell) : pickCell s = none ↔ s = ∅ := by
  constructor
  · intro h
    by_contra hne
    have hs : s.1 ≠ 0 := by
      intro h0
      exact hne (Finset.val_eq_zero.mp h0)
    rcases Multiset.exists_mem_of_ne_zero hs with ⟨a, ha⟩
    rcases Multiset.exists_cons_of_mem ha with ⟨m, hm⟩
    rw [pickCell, hm, Multiset.foldl_cons] at h
    exact pickFold_ne_none m (pickStep none a) (pickStep_ne_none none a) h
  · intro h
    subst h
    rfl

theorem pickCell_mem (s : Finset Cell) (c : Cell) (h : pickCell s = some c) : c ∈ s := by
  rcases pickFold_mem s.1 none c h with h1 | h2
  · exact absurd h1 (by simp)
  · exact h2

theorem mem_allCells (height width : Nat) (p : Cell) :
    p ∈ allCells height width ↔
      0 ≤ p.1 ∧ p.1 < (height : Int) ∧ 0 ≤ p.2 ∧ p.2 < (width : Int) := by
  obtain ⟨y, x⟩ := p
  simp only [allCells, Finset.mem_image, Finset.mem_product, Finset.mem_range,
    Prod.mk.injEq, Prod.exists]
  constructor
  · rintro ⟨a, b, ⟨ha, hb⟩, h1, h2⟩
    subst h1
    subst h2
    constructor
    · exact Int.ofNat_nonneg a
    refine ⟨?_, Int.ofNat_nonneg b, ?_⟩ <;> exact_mod_cast ‹_›
  · rintro ⟨h1, h2, h3, h4⟩
    refine ⟨y.toNat, x.toNat, ⟨?_, ?_⟩, ?_, ?_⟩ <;> omega

/-- C9: the move-selection queries signal unavailability through an
optional result (the embedding functions are total and return only the
optional cell, mutating nothing): `make_safe_move` returns some cell of
`safes - moves_made` exactly when that set is non-empty, and
`make_random_move` returns some cell of
`{all grid cells} - moves_made - mines` exactly when that set is
non-empty, where the grid cells are exactly the in-bounds pairs. -/
theorem claim_C9_move_selection (st : MinesweeperAI) :
    (st.make_safe_move = none ↔ st.safes \ st.moves_made = ∅) ∧
    (∀ c, st.make_safe_move = some c → c ∈ st.safes ∧ c ∉ st.moves_made) ∧
    (st.make_random_move = none ↔
      (allCells st.height st.width \ st.moves_made) \ st.mines = ∅) ∧
    (∀ c, st.make_random_move = some c →
      (0 ≤ c.1 ∧ c.1 < (st.height : Int) ∧ 0 ≤ c.2 ∧ c.2 < (st.width : Int)) ∧
        c ∉ st.moves_made ∧ c ∉ st.mines) := by
  refine ⟨pickCell_eq_none_iff _, fun c h => ?_, pickCell_eq_none_iff _, fun c h => ?_⟩
  · have := pickCell_mem _ c h
    rw [Finset.mem_sdiff] at this
    exact this
  · have := pickCell_mem _ c h
    rw [Finset.mem_sdiff, Finset.mem_sdiff] at this
    exact ⟨(mem_allCells st.height st.width c).mp this.1.1, this.1.2, this.2⟩

/-- Witness for C9 at a concrete 1x1 agent with one safe unplayed cell. -/
theorem claim_C9_witness :
    MinesweeperAI.make_safe_move ⟨1, 1, ∅, ∅, {((0 : Int), (0 : Int))}, []⟩ =
        some ((0 : Int), (0 : Int)) ∧
    ((0 : Int), (0 : Int)) ∈
        (⟨1, 1, ∅, ∅, {((0 : Int), (0 : Int))}, []⟩ : MinesweeperAI).safes ∧
    ((0 : Int), (0 : Int)) ∉
        (⟨1, 1, ∅, ∅, {((0 : Int), (0 : Int))}, []⟩ : MinesweeperAI).moves_made :=
  ⟨by decide, (claim_C9_move_selection ⟨1, 1, ∅, ∅, {((0 : Int), (0 : Int))}, []⟩).2.1
    ((0 : Int), (0 : Int)) (by decide)⟩

theorem rnfold_mem (cond : Cell → Prop) [DecidablePred cond] (mines : Finset Cell)
    (l : List Cell) (acc : Finset Cell × Int) (x : Cell) :
    x ∈ (List.foldl
        (fun a p =>
          if cond p then (insert p a.1, a.2 + (if p ∈ mines then 1 else 0)) else a)
        acc l).1 ↔
      x ∈ acc.1 ∨ (x ∈ l ∧ cond x) := by
  induction l generalizing acc with
  | nil => simp
  | cons p l ih =>
    rw [List.foldl_cons]
    by_cases hp : cond p
    · rw [if_pos hp, ih]
      constructor
      · rintro (h | h)
        · rcases Finset.mem_insert.mp h with h | h
          · exact Or.inr ⟨by simp [h], h ▸ hp⟩
          · exact Or.inl h
        · exact Or.inr ⟨List.mem_cons_of_mem _ h.1, h.2⟩
      · rintro (h | ⟨hm, hc⟩)
        · exact Or.inl (Finset.mem_insert_of_mem h)
        · rcases List.mem_cons.mp hm with h | h
          · exact Or.inl (by simp [h])
          · exact Or.inr ⟨h, hc⟩
    · rw [if_neg hp, ih]
      constructor
      · rintro (h | h)
        · exact Or.inl h
        · exact Or.inr ⟨List.mem_cons_of_mem _ h.1, h.2⟩
      · rintro (h | ⟨hm, hc⟩)
        · exact Or.inl h
        · rcases List.mem_cons.mp hm with h | h
          · exact absurd (h ▸ hc) hp
          · exact Or.inr ⟨h, hc⟩

theorem rnfold_count (cond : Cell → Prop) [DecidablePred cond] (mines : Finset Cell)
    (l : List Cell) (acc : Finset Cell × Int) (hnd : l.Nodup)
    (hdisj : ∀ p ∈ l, p ∉ acc.1)
    (hacc : acc.2 = ((acc.1.filter (· ∈ mines)).card : Int)) :
    (List.foldl
        (fun a p =>
          if cond p then (insert p a.1, a.2 + (if p ∈ mines then 1 else 0)) else a)
        acc l).2 =
      (((List.foldl
        (fun a p =>
          if cond p then (insert p a.1, a.2 + (if p ∈ mines then 1 else 0)) else a)
        acc l).1.filter (· ∈ mines)).card : Int) := by
  induction l generalizing acc with
  | nil => simpa using hacc
  | cons p l ih =>
    rw [List.foldl_cons]
    have hndl : l.Nodup := (List.nodup_cons.mp hnd).2
    have hpl : p ∉ l := (List.nodup_cons.mp hnd).1
    by_cases hp : cond p
    · rw [if_pos hp]
      refine ih _ hndl (fun q hq => ?_) ?_
      · simp only [Finset.mem_insert, not_or]
        exact ⟨fun h => hpl (h ▸ hq), hdisj q (List.mem_cons_of_mem _ hq)⟩
      · have hpacc : p ∉ acc.1 := hdisj p (List.mem_cons_self p l)
        by_cases hm : p ∈ mines
        · have hnot : p ∉ Finset.filter (fun x => x ∈ mines) acc.1 :=
            fun h => hpacc (Finset.mem_of_mem_filter p h)
          simp only [Finset.filter_insert, hm, if_true,
            Finset.card_insert_of_not_mem hnot, hacc]
          push_cast
          ring
        · simp only [Finset.filter_insert, hm, if_false]
          simp [hacc, hm]
    · rw [if_neg hp]
      exact ih _ hndl (fun q hq => hdisj q (List.mem_cons_of_mem _ hq)) hacc

theorem nbCands_nodup (c : Cell) : (nbCands c).Nodup := by
  obtain ⟨i, j⟩ := c
  simp [nbCands, List.nodup_cons, Prod.ext_iff]
  omega

theorem mem_nbCands (c x : Cell) :
    x ∈ nbCands c ↔
      c.1 - 1 ≤ x.1 ∧ x.1 ≤ c.1 + 1 ∧ c.2 - 1 ≤ x.2 ∧ x.2 ≤ c.2 + 1 := by
  obtain ⟨i, j⟩ := c
  obtain ⟨y, x⟩ := x
  simp only [nbCands, List.mem_cons, List.not_mem_nil, or_false, Prod.mk.injEq]
  omega

namespace MinesweeperAI

theorem mem_return_neighbors (st : MinesweeperAI) (c x : Cell) :
    x ∈ (st.return_neighbors c).1 ↔
      x ∈ nbCands c ∧ nbCond st.height st.width c x := by
  rw [return_neighbors, rnfold_mem]
  simp

theorem return_neighbors_count (st : MinesweeperAI) (c : Cell) :
    (st.return_neighbors c).2 =
      (((st.return_neighbors c).1.filter (· ∈ st.mines)).card : Int) := by
  rw [return_neighbors, rnfold_count]
  · exact nbCands_nodup c
  · simp
  · simp

end MinesweeperAI

theorem return_neighbors_fst_eq (st : MinesweeperAI) (c : Cell) :
    (st.return_neighbors c).1 = neighborsOf st.height st.width c := by
  ext p
  rw [MinesweeperAI.mem_return_neighbors, neighborsOf,
    MinesweeperAI.mem_return_neighbors]
  rfl

/-- C10: frame property of the agent's marking operations.
`MinesweeperAI.mark_mine c` adds `c` to `mines` and rewrites only the
sentences whose cells contain `c`, leaving `safes`, `moves_made`, `height`,
`width`, the knowledge length and every sentence not containing `c`
unchanged; `MinesweeperAI.mark_safe c` is symmetric, changing only `safes`
and the sentences containing `c`. -/
theorem claim_C10_mark_frame (st : MinesweeperAI) (c : Cell) :
    ((st.mark_mine c).mines = insert c st.mines ∧
      (st.mark_mine c).safes = st.safes ∧
      (st.mark_mine c).moves_made = st.moves_made ∧
      (st.mark_mine c).height = st.height ∧
      (st.mark_mine c).width = st.width ∧
      (st.mark_mine c).knowledge.length = st.knowledge.length ∧
      (∀ (i : Nat) (S : Sentence), st.knowledge[i]? = some S → c ∉ S.cells →
        (st.mark_mine c).knowledge[i]? = some S) ∧
      (∀ (i : Nat) (S : Sentence), st.knowledge[i]? = some S → c ∈ S.cells →
        (st.mark_mine c).knowledge[i]? = some ⟨S.cells.erase c, S.count - 1⟩)) ∧
    ((st.mark_safe c).safes = insert c st.safes ∧
      (st.mark_safe c).mines = st.mines ∧
      (st.mark_safe c).moves_made = st.moves_made ∧
      (st.mark_safe c).height = st.height ∧
      (st.mark_safe c).width = st.width ∧
      (st.mark_safe c).knowledge.length = st.knowledge.length ∧
      (∀ (i : Nat) (S : Sentence), st.knowledge[i]? = some S → c ∉ S.cells →
        (st.mark_safe c).knowledge[i]? = some S) ∧
      (∀ (i : Nat) (S : Sentence), st.knowledge[i]? = some S → c ∈ S.cells →
        (st.mark_safe c).knowledge[i]? = some ⟨S.cells.erase c, S.count⟩)) := by
  refine ⟨⟨rfl, rfl, rfl, rfl, rfl, by simp [MinesweeperAI.mark_mine], ?_, ?_⟩,
    ⟨rfl, rfl, rfl, rfl, rfl, by simp [MinesweeperAI.mark_safe], ?_, ?_⟩⟩ <;>
    intro i S hS hc <;>
    simp [MinesweeperAI.mark_mine, MinesweeperAI.mark_safe, List.getElem?_map, hS,
      Sentence.mark_mine, Sentence.mark_safe, hc]

/-- Witness for C10 at a one-sentence agent state. -/
theorem claim_C10_witness :
    (MinesweeperAI.mark_mine
        ⟨1, 2, ∅, ∅, ∅, [⟨{((0 : Int), (1 : Int))}, 1⟩]⟩ ((0 : Int), (0 : Int))).knowledge[0]? =
      some ⟨{((0 : Int), (1 : Int))}, 1⟩ :=
  (claim_C10_mark_frame ⟨1, 2, ∅, ∅, ∅, [⟨{((0 : Int), (1 : Int))}, 1⟩]⟩
      ((0 : Int), (0 : Int))).1.2.2.2.2.2.2.1 0 ⟨{((0 : Int), (1 : Int))}, 1⟩
    (by rfl) (by decide)

theorem evolves_refl (st : MinesweeperAI) : Evolves st st :=
  ⟨rfl, rfl, Finset.Subset.refl _, Finset.Subset.refl _, Finset.Subset.refl _,
    Nat.le_refl _, fun _ S h => ⟨S, h, Finset.Subset.refl _⟩⟩

theorem evolves_trans {a b c : MinesweeperAI} (h1 : Evolves a b) (h2 : Evolves b c) :
    Evolves a c := by
  obtain ⟨e1, e2, m1, m2, m3, hl, hk⟩ := h1
  obtain ⟨f1, f2, n1, n2, n3, hl', hk'⟩ := h2
  refine ⟨f1.trans e1, f2.trans e2, m1.trans n1, m2.trans n2, m3.trans n3,
    hl.trans hl', fun i S h => ?_⟩
  obtain ⟨S1, hS1, hs1⟩ := hk i S h
  obtain ⟨S2, hS2, hs2⟩ := hk' i S1 hS1
  exact ⟨S2, hS2, hs2.trans hs1⟩

theorem evolves_mark_mine (st : MinesweeperAI) (c : Cell) :
    Evolves st (st.mark_mine c) := by
  refine ⟨rfl, rfl, Finset.Subset.refl _, Finset.subset_insert c st.mines,
    Finset.Subset.refl _, by simp [MinesweeperAI.mark_mine], fun i S h => ?_⟩
  refine ⟨S.mark_mine c, ?_, ?_⟩
  · simp [MinesweeperAI.mark_mine, List.getElem?_map, h]
  · unfold Sentence.mark_mine
    split_ifs
    · exact Finset.erase_subset c S.cells
    · exact Finset.Subset.refl _

theorem evolves_mark_safe (st : MinesweeperAI) (c : Cell) :
    Evolves st (st.mark_safe c) := by
  refine ⟨rfl, rfl, Finset.Subset.refl _, Finset.Subset.refl _,
    Finset.subset_insert c st.safes, by simp [MinesweeperAI.mark_safe], fun i S h => ?_⟩
  refine ⟨S.mark_safe c, ?_, ?_⟩
  · simp [MinesweeperAI.mark_safe, List.getElem?_map, h]
  · unfold Sentence.mark_safe
    split_ifs
    · exact Finset.erase_subset c S.cells
    · exact Finset.Subset.refl _

theorem evolves_foldl_mark_mine (m : Multiset Cell) (st : MinesweeperAI) :
    Evolves st (Multiset.foldl MinesweeperAI.mark_mine st m) := by
  induction m using Multiset.induction_on generalizing st with
  | empty => exact evolves_refl st
  | cons a m ih =>
    rw [Multiset.foldl_cons]
    exact evolves_trans (evolves_mark_mine st a) (ih _)

theorem evolves_foldl_mark_safe (m : Multiset Cell) (st : MinesweeperAI) :
    Evolves st (Multiset.foldl MinesweeperAI.mark_safe st m) := by
  induction m using Multiset.induction_on generalizing st with
  | empty => exact evolves_refl st
  | cons a m ih =>
    rw [Multiset.foldl_cons]
    exact evolves_trans (evolves_mark_safe st a) (ih _)

theorem evolves_mark_mines_of (st : MinesweeperAI) (m : Finset Cell) :
    Evolves st (st.mark_mines_of m) :=
  evolves_foldl_mark_mine m.1 st

theorem evolves_mark_safes_of (st : MinesweeperAI) (m : Finset Cell) :
    Evolves st (st.mark_safes_of m) :=
  evolves_foldl_mark_safe m.1 st

theorem evolves_step5_at (st : MinesweeperAI) (i : Nat) :
    Evolves st (st.step5_at i) := by
  unfold MinesweeperAI.step5_at
  rcases h : st.knowledge[i]? with _ | s
  · simp only [h]
    exact evolves_refl st
  · simp only [h]
    rcases h1 : (st.mark_mines_of s.known_mines).knowledge[i]? with _ | s1
    · simp only [h1]
      exact evolves_mark_mines_of st s.known_mines
    · simp only [h1]
      exact evolves_trans (evolves_mark_mines_of st s.known_mines)
        (evolves_mark_safes_of _ s1.known_safes)

theorem evolves_step5 (st : MinesweeperAI) : Evolves st st.step5 := by
  unfold MinesweeperAI.step5
  generalize List.range st.knowledge.length = l
  induction l generalizing st with
  | nil => exact evolves_refl st
  | cons i l ih =>
    rw [List.foldl_cons]
    exact evolves_trans (evolves_step5_at st i) (ih _)

theorem evolves_append_sentence (st : MinesweeperAI) (r : Sentence) :
    Evolves st { st with knowledge := st.knowledge ++ [r] } := by
  refine ⟨rfl, rfl, Finset.Subset.refl _, Finset.Subset.refl _, Finset.Subset.refl _,
    by simp, fun i S h => ?_⟩
  refine ⟨S, ?_, Finset.Subset.refl _⟩
  have hi : i < st.knowledge.length := by
    by_contra hge
    rw [List.getElem?_eq_none (Nat.le_of_not_lt hge)] at h
    exact Option.noConfusion h
  simpa [List.getElem?_append_left hi] using h

theorem evolves_step6_aux (fuel : Nat) (st : MinesweeperAI) (i j : Nat) :
    Evolves st (MinesweeperAI.step6_aux fuel st i j) := by
  induction fuel generalizing st i j with
  | zero => exact evolves_refl st
  | succ fuel ih =>
    simp only [MinesweeperAI.step6_aux]
    by_cases hi : i < st.knowledge.length
    · simp only [dif_pos hi]
      by_cases hcells : (st.knowledge.get ⟨i, hi⟩).cells = ∅
      · simp only [hcells, if_true]
        exact ih st (i + 1) 0
      · simp only [hcells, if_false]
        by_cases hj : j < st.knowledge.length
        · simp only [dif_pos hj]
          refine evolves_trans ?_ (ih _ i (j + 1))
          split_ifs
          · exact evolves_refl st
          · exact evolves_refl st
          · exact evolves_refl st
          · exact evolves_append_sentence st _
          · exact evolves_refl st
        · simp only [dif_neg hj]
          exact ih st (i + 1) 0
    · simp only [dif_neg hi]
      exact evolves_refl st

theorem evolves_add_knowledge_base (st : MinesweeperAI) (cell : Cell) (count : Int) :
    Evolves st (st.add_knowledge_base cell count) := by
  unfold MinesweeperAI.add_knowledge_base
  have h1 : Evolves st { st with moves_made := insert cell st.moves_made } :=
    ⟨rfl, rfl, Finset.subset_insert cell st.moves_made, Finset.Subset.refl _,
      Finset.Subset.refl _, Nat.le_refl _, fun _ S h => ⟨S, h, Finset.Subset.refl _⟩⟩
  refine evolves_trans (evolves_trans h1 (evolves_mark_safe _ cell)) ?_
  dsimp only
  split_ifs
  · exact evolves_refl _
  · exact evolves_refl _
  · exact evolves_append_sentence _ _

theorem evolves_add_knowledge (fuel : Nat) (st : MinesweeperAI) (cell : Cell)
    (count : Int) : Evolves st (MinesweeperAI.add_knowledge fuel st cell count) :=
  evolves_trans (evolves_add_knowledge_base st cell count)
    (evolves_trans (evolves_step5 _) (evolves_step6_aux fuel _ 0 0))

theorem evolves_runOps (fuel : Nat) (st : MinesweeperAI) (ops : List AgentOp) :
    Evolves st (runOps fuel st ops) := by
  unfold runOps
  induction ops generalizing st with
  | nil => exact evolves_refl st
  | cons op ops ih =>
    rw [List.foldl_cons]
    refine evolves_trans ?_ (ih _)
    cases op with
    | addKnowledge c n => exact evolves_add_knowledge fuel st c n
    | markMine c => exact evolves_mark_mine st c
    | markSafe c => exact evolves_mark_safe st c

/-- C8: across any sequence of agent operations, `moves_made`, `mines` and
`safes` never lose an element, and `knowledge` is append-only: its length
never decreases and the sentence at each already-existing index is only
mutated in place (its cell set can only shrink), never replaced or
deleted. -/
theorem claim_C8_monotonicity (fuel : Nat) (st : MinesweeperAI) (ops : List AgentOp) :
    st.moves_made ⊆ (runOps fuel st ops).moves_made ∧
    st.mines ⊆ (runOps fuel st ops).mines ∧
    st.safes ⊆ (runOps fuel st ops).safes ∧
    st.knowledge.length ≤ (runOps fuel st ops).knowledge.length ∧
    (∀ (i : Nat) (S : Sentence), st.knowledge[i]? = some S →
      ∃ S' : Sentence, (runOps fuel st ops).knowledge[i]? = some S' ∧
        S'.cells ⊆ S.cells) := by
  obtain ⟨_, _, h3, h4, h5, h6, h7⟩ := evolves_runOps fuel st ops
  exact ⟨h3, h4, h5, h6, h7⟩

/-- Witness for C8: one `mark_mine` step on a one-sentence state. -/
theorem claim_C8_witness :
    ∃ S' : Sentence,
      (runOps 1 ⟨1, 1, ∅, ∅, ∅, [⟨{((0 : Int), (0 : Int))}, 1⟩]⟩
          [AgentOp.markMine ((0 : Int), (0 : Int))]).knowledge[0]? = some S' ∧
        S'.cells ⊆ (⟨{((0 : Int), (0 : Int))}, 1⟩ : Sentence).cells :=
  (claim_C8_monotonicity 1 ⟨1, 1, ∅, ∅, ∅, [⟨{((0 : Int), (0 : Int))}, 1⟩]⟩
      [AgentOp.markMine ((0 : Int), (0 : Int))]).2.2.2.2 0
    ⟨{((0 : Int), (0 : Int))}, 1⟩ (by rfl)

namespace MinesweeperAI

theorem add_knowledge_base_moves (st : MinesweeperAI) (cell : Cell) (n : Int) :
    (st.add_knowledge_base cell n).moves_made = insert cell st.moves_made := by
  unfold add_knowledge_base
  dsimp only
  split_ifs <;> rfl

theorem add_knowledge_base_safes (st : MinesweeperAI) (cell : Cell) (n : Int) :
    (st.add_knowledge_base cell n).safes = insert cell st.safes := by
  unfold add_knowledge_base
  dsimp only
  split_ifs <;> rfl

theorem add_knowledge_base_mines (st : MinesweeperAI) (cell : Cell) (n : Int) :
    (st.add_knowledge_base cell n).mines = st.mines := by
  unfold add_knowledge_base
  dsimp only
  split_ifs <;> rfl

theorem evolves_base_to_add_knowledge (fuel : Nat) (st : MinesweeperAI) (cell : Cell)
    (n : Int) :
    Evolves (st.add_knowledge_base cell n) (add_knowledge fuel st cell n) :=
  evolves_trans (evolves_step5 _) (evolves_step6_aux fuel _ 0 0)

end MinesweeperAI

/-- C5: `add_knowledge(cell, count)` adds the cell to `moves_made` and marks
it safe; the neighbor set is exactly the in-bounds grid-adjacent cells other
than the cell itself, with the returned count being the number of those
neighbors already in `mines`; and the base phase appends
`Sentence(neighbors - mines - safes, count - known_mine_count)` exactly when
that cell set is non-empty and no value-equal sentence is present (the
dedup check and the sentence lists being taken after the cell itself was
marked safe, which is how the source mutates `self.knowledge` before the
append). -/
theorem claim_C5_add_knowledge_new_sentence (fuel : Nat) (st : MinesweeperAI)
    (cell : Cell) (n : Int) :
    cell ∈ (MinesweeperAI.add_knowledge fuel st cell n).moves_made ∧
    cell ∈ (MinesweeperAI.add_knowledge fuel st cell n).safes ∧
    (∀ p : Cell, p ∈ (st.return_neighbors cell).1 ↔
      (0 ≤ p.1 ∧ p.1 < (st.height : Int) ∧ 0 ≤ p.2 ∧ p.2 < (st.width : Int) ∧
        cell.1 - 1 ≤ p.1 ∧ p.1 ≤ cell.1 + 1 ∧ cell.2 - 1 ≤ p.2 ∧ p.2 ≤ cell.2 + 1 ∧
        p ≠ cell)) ∧
    (st.return_neighbors cell).2 =
      (((st.return_neighbors cell).1.filter (· ∈ st.mines)).card : Int) ∧
    (st.add_knowledge_base cell n).moves_made = insert cell st.moves_made ∧
    (st.add_knowledge_base cell n).safes = insert cell st.safes ∧
    (st.add_knowledge_base cell n).mines = st.mines ∧
    (((st.return_neighbors cell).1 \ st.mines) \ insert cell st.safes = ∅ →
      (st.add_knowledge_base cell n).knowledge =
        st.knowledge.map (fun S => S.mark_safe cell)) ∧
    (((st.return_neighbors cell).1 \ st.mines) \ insert cell st.safes ≠ ∅ →
      ((⟨((st.return_neighbors cell).1 \ st.mines) \ insert cell st.safes,
            n - (st.return_neighbors cell).2⟩ : Sentence) ∈
          st.knowledge.map (fun S => S.mark_safe cell) →
        (st.add_knowledge_base cell n).knowledge =
          st.knowledge.map (fun S => S.mark_safe cell)) ∧
      ((⟨((st.return_neighbors cell).1 \ st.mines) \ insert cell st.safes,
            n - (st.return_neighbors cell).2⟩ : Sentence) ∉
          st.knowledge.map (fun S => S.mark_safe cell) →
        (st.add_knowledge_base cell n).knowledge =
          st.knowledge.map (fun S => S.mark_safe cell) ++
            [⟨((st.return_neighbors cell).1 \ st.mines) \ insert cell st.safes,
              n - (st.return_neighbors cell).2⟩])) := by
  have hbase := MinesweeperAI.evolves_base_to_add_knowledge fuel st cell n
  refine ⟨?_, ?_, ?_, st.return_neighbors_count cell,
    st.add_knowledge_base_moves cell n, st.add_knowledge_base_safes cell n,
    st.add_knowledge_base_mines cell n, ?_, ?_⟩
  · refine hbase.2.2.1 ?_
    rw [st.add_knowledge_base_moves cell n]
    exact Finset.mem_insert_self cell st.moves_made
  · refine hbase.2.2.2.2.1 ?_
    rw [st.add_knowledge_base_safes cell n]
    exact Finset.mem_insert_self cell st.safes
  · intro p
    obtain ⟨y, x⟩ := p
    rw [MinesweeperAI.mem_return_neighbors, mem_nbCands]
    unfold nbCond
    obtain ⟨i, j⟩ := cell
    simp only [ne_eq, Prod.mk.injEq, not_and]
    constructor
    · rintro ⟨hbox, h1, h2, h3, h4, h5⟩
      refine ⟨h1, h2, h3, h4, hbox.1, hbox.2.1, hbox.2.2.1, hbox.2.2.2, ?_⟩
      intro he
      exact h5 he
    · rintro ⟨h1, h2, h3, h4, b1, b2, b3, b4, hne⟩
      exact ⟨⟨b1, b2, b3, b4⟩, h1, h2, h3, h4, hne⟩
  · intro hempty
    unfold MinesweeperAI.add_knowledge_base
    dsimp only
    split_ifs with h1 h2
    · rfl
    · exact absurd hempty h1
    · exact absurd hempty h1
  · intro hne
    constructor
    · intro hmem
      unfold MinesweeperAI.add_knowledge_base
      dsimp only
      split_ifs with h1 h2
      · exact absurd h1 hne
      · rfl
      · exact absurd hmem h2
    · intro hmem
      unfold MinesweeperAI.add_knowledge_base
      dsimp only
      split_ifs with h1 h2
      · exact absurd h1 hne
      · exact absurd h2 hmem
      · rfl

/-- Witness for C5: a 1x2 grid, first call at `(0,0)` with count 0; the
new sentence over the single unknown neighbor `(0,1)` is appended. -/
theorem claim_C5_witness :
    ((0 : Int), (0 : Int)) ∈
      (MinesweeperAI.add_knowledge 9 (initAI 1 2) ((0 : Int), (0 : Int)) 0).moves_made ∧
    ((0 : Int), (0 : Int)) ∈
      (MinesweeperAI.add_knowledge 9 (initAI 1 2) ((0 : Int), (0 : Int)) 0).safes ∧
    (MinesweeperAI.add_knowledge_base (initAI 1 2) ((0 : Int), (0 : Int)) 0).knowledge =
      (initAI 1 2).knowledge.map (fun S => S.mark_safe ((0 : Int), (0 : Int))) ++
        [⟨(((initAI 1 2).return_neighbors ((0 : Int), (0 : Int))).1 \ (initAI 1 2).mines) \
            insert ((0 : Int), (0 : Int)) (initAI 1 2).safes,
          0 - ((initAI 1 2).return_neighbors ((0 : Int), (0 : Int))).2⟩] :=
  ⟨(claim_C5_add_knowledge_new_sentence 9 (initAI 1 2) ((0 : Int), (0 : Int)) 0).1,
    (claim_C5_add_knowledge_new_sentence 9 (initAI 1 2) ((0 : Int), (0 : Int)) 0).2.1,
    ((claim_C5_add_knowledge_new_sentence 9 (initAI 1 2)
        ((0 : Int), (0 : Int)) 0).2.2.2.2.2.2.2.2 (by decide)).2 (by decide)⟩

/-- C2 counterexample: on a 2x3 grid with the single true mine `(0,1)`,
after the three consistent observations `((1,0),1)`, `((1,2),1)`,
`((1,1),1)` — the call in which `A = {(0,0),(0,1)} = 1` and
`B = {(0,0),(0,1),(0,2)} = 1` are both present — the derived sentence
`{(0,2)} = 0` is in `knowledge` and yields the certain safe cell `(0,2)`,
yet `(0,2)` is not in `safes` when the call returns: the propagation pass
is not driven to a fixed point. -/
theorem claim_C2_counterexample :
    (∀ p ∈ [(((1 : Int), (0 : Int)), (1 : Int)), (((1 : Int), (2 : Int)), 1),
        (((1 : Int), (1 : Int)), 1)],
      ConsistentObs {((0 : Int), (1 : Int))} 2 3 p) ∧
    (⟨{((0 : Int), (0 : Int)), ((0 : Int), (1 : Int))}, 1⟩ : Sentence) ∈
      (runAI 200 (initAI 2 3) [(((1 : Int), (0 : Int)), 1), (((1 : Int), (2 : Int)), 1),
        (((1 : Int), (1 : Int)), 1)]).knowledge ∧
    (⟨{((0 : Int), (0 : Int)), ((0 : Int), (1 : Int)), ((0 : Int), (2 : Int))}, 1⟩ :
        Sentence) ∈
      (runAI 200 (initAI 2 3) [(((1 : Int), (0 : Int)), 1), (((1 : Int), (2 : Int)), 1),
        (((1 : Int), (1 : Int)), 1)]).knowledge ∧
    (⟨{((0 : Int), (2 : Int))}, 0⟩ : Sentence) ∈
      (runAI 200 (initAI 2 3) [(((1 : Int), (0 : Int)), 1), (((1 : Int), (2 : Int)), 1),
        (((1 : Int), (1 : Int)), 1)]).knowledge ∧
    Sentence.known_safes ⟨{((0 : Int), (2 : Int))}, 0⟩ = {((0 : Int), (2 : Int))} ∧
    ((0 : Int), (2 : Int)) ∉
      (runAI 200 (initAI 2 3) [(((1 : Int), (0 : Int)), 1), (((1 : Int), (2 : Int)), 1),
        (((1 : Int), (1 : Int)), 1)]).safes := by
  decide

/-- C2 corrected: propagation inside `add_knowledge` is a single in-order
pass over `knowledge`, run before the subset-inference step, so a sentence
derived by that step can yield a certain cell that is not yet marked when
the call returns; in the scenario, `{(0,2)} = 0` exists after the call in
which `A` and `B` are both present, and `(0,2)` is marked safe only during
the next `add_knowledge` call's pass. -/
theorem claim_C2_amended_next_call :
    (∀ p ∈ [(((1 : Int), (0 : Int)), (1 : Int)), (((1 : Int), (2 : Int)), 1),
        (((1 : Int), (1 : Int)), 1), (((1 : Int), (0 : Int)), 1)],
      ConsistentObs {((0 : Int), (1 : Int))} 2 3 p) ∧
    (⟨{((0 : Int), (2 : Int))}, 0⟩ : Sentence) ∈
      (runAI 200 (initAI 2 3) [(((1 : Int), (0 : Int)), 1), (((1 : Int), (2 : Int)), 1),
        (((1 : Int), (1 : Int)), 1)]).knowledge ∧
    ((0 : Int), (2 : Int)) ∉
      (runAI 200 (initAI 2 3) [(((1 : Int), (0 : Int)), 1), (((1 : Int), (2 : Int)), 1),
        (((1 : Int), (1 : Int)), 1)]).safes ∧
    ((0 : Int), (2 : Int)) ∈
      (runAI 200 (initAI 2 3) [(((1 : Int), (0 : Int)), 1), (((1 : Int), (2 : Int)), 1),
        (((1 : Int), (1 : Int)), 1), (((1 : Int), (0 : Int)), 1)]).safes := by
  decide

/-- C6 counterexample: in the same consistent 2x3 run extended by a fourth
call, the marking pass empties every sentence in place, leaving `knowledge`
with seven value-equal copies of the trivial sentence `{} = 0` — the
duplicate-freeness is not preserved across the in-place mutation. -/
theorem claim_C6_counterexample :
    (∀ p ∈ [(((1 : Int), (0 : Int)), (1 : Int)), (((1 : Int), (2 : Int)), 1),
        (((1 : Int), (1 : Int)), 1), (((1 : Int), (0 : Int)), 1)],
      ConsistentObs {((0 : Int), (1 : Int))} 2 3 p) ∧
    (runAI 200 (initAI 2 3) [(((1 : Int), (0 : Int)), 1), (((1 : Int), (2 : Int)), 1),
        (((1 : Int), (1 : Int)), 1), (((1 : Int), (0 : Int)), 1)]).knowledge[0]? =
      some ⟨∅, 0⟩ ∧
    (runAI 200 (initAI 2 3) [(((1 : Int), (0 : Int)), 1), (((1 : Int), (2 : Int)), 1),
        (((1 : Int), (1 : Int)), 1), (((1 : Int), (0 : Int)), 1)]).knowledge[1]? =
      some ⟨∅, 0⟩ ∧
    ¬ (runAI 200 (initAI 2 3) [(((1 : Int), (0 : Int)), 1), (((1 : Int), (2 : Int)), 1),
        (((1 : Int), (1 : Int)), 1), (((1 : Int), (0 : Int)), 1)]).knowledge.Nodup := by
  decide

/-- The subset-inference loops never touch the global sets or the grid
shape, and only append to `knowledge`. -/
theorem step6_aux_spec (fuel : Nat) (st : MinesweeperAI) (i j : Nat) :
    (MinesweeperAI.step6_aux fuel st i j).moves_made = st.moves_made ∧
    (MinesweeperAI.step6_aux fuel st i j).mines = st.mines ∧
    (MinesweeperAI.step6_aux fuel st i j).safes = st.safes ∧
    ∃ t : List Sentence,
      (MinesweeperAI.step6_aux fuel st i j).knowledge = st.knowledge ++ t := by
  induction fuel generalizing st i j with
  | zero => exact ⟨rfl, rfl, rfl, [], by simp [MinesweeperAI.step6_aux]⟩
  | succ fuel ih =>
    simp only [MinesweeperAI.step6_aux]
    by_cases hi : i < st.knowledge.length
    · simp only [dif_pos hi]
      by_cases hcells : (st.knowledge.get ⟨i, hi⟩).cells = ∅
      · simp only [hcells, if_true]
        exact ih st (i + 1) 0
      · simp only [hcells, if_false]
        by_cases hj : j < st.knowledge.length
        · simp only [dif_pos hj]
          split_ifs with h1 h2 h3 h4
          · exact ih st i (j + 1)
          · exact ih st i (j + 1)
          · exact ih st i (j + 1)
          · obtain ⟨e1, e2, e3, t, ht⟩ :=
              ih { st with knowledge := st.knowledge ++
                [⟨((st.knowledge.get ⟨j, hj⟩).cells \ (st.knowledge.get ⟨i, hi⟩).cells) \
                    st.moves_made,
                  (st.knowledge.get ⟨j, hj⟩).count - (st.knowledge.get ⟨i, hi⟩).count⟩] }
              i (j + 1)
            refine ⟨e1, e2, e3,
              ⟨[⟨((st.knowledge.get ⟨j, hj⟩).cells \ (st.knowledge.get ⟨i, hi⟩).cells) \
                    st.moves_made,
                  (st.knowledge.get ⟨j, hj⟩).count - (st.knowledge.get ⟨i, hi⟩).count⟩] ++ t,
                ?_⟩⟩
            rw [ht]
            simp
          · exact ih st i (j + 1)
        · simp only [dif_neg hj]
          exact ih st (i + 1) 0
    · simp only [dif_neg hi]
      exact ⟨trivial, trivial, trivial, [], by simp⟩

/-- C3 counterexample: on a 2x2 grid, after `add_knowledge((0,0), 1)` and
`add_knowledge((1,1), 3)` the subset-inference step appends the degenerate
sentence `{} = 2` (empty cell set, count exceeding it): it was absent after
the propagation pass of the second call and present when the call returned,
so the inference step appends sentences with no non-degeneracy check. -/
theorem claim_C3_counterexample :
    (⟨∅, 2⟩ : Sentence) ∉
      (MinesweeperAI.step5 (MinesweeperAI.add_knowledge_base
        (MinesweeperAI.add_knowledge 200 (initAI 2 2) ((0 : Int), (0 : Int)) 1)
        ((1 : Int), (1 : Int)) 3)).knowledge ∧
    (⟨∅, 2⟩ : Sentence) ∈
      (MinesweeperAI.add_knowledge 200
        (MinesweeperAI.add_knowledge 200 (initAI 2 2) ((0 : Int), (0 : Int)) 1)
        ((1 : Int), (1 : Int)) 3).knowledge ∧
    (⟨∅, 2⟩ : Sentence).cells.card = 0 ∧ (⟨∅, 2⟩ : Sentence).count = 2 := by
  decide

/-- C3 corrected: every sentence the subset-inference step appends comes
from an ordered pair of value-distinct non-empty sentences `(A, B)` with
`A.cells ⊆ B.cells`, both present in the resulting knowledge, and equals
`Sentence(B.cells - A.cells - moves_made, B.count - A.count)`; the step
performs no non-degeneracy check (dedup by value equality is the only
guard, and is covered separately). -/
theorem claim_C3_amended_step6_sound (fuel : Nat) (st : MinesweeperAI) (i j : Nat) :
    ∀ r ∈ (MinesweeperAI.step6_aux fuel st i j).knowledge,
      r ∈ st.knowledge ∨
      ∃ A B : Sentence,
        A ∈ (MinesweeperAI.step6_aux fuel st i j).knowledge ∧
        B ∈ (MinesweeperAI.step6_aux fuel st i j).knowledge ∧
        A ≠ B ∧ A.cells ≠ ∅ ∧ B.cells ≠ ∅ ∧ A.cells ⊆ B.cells ∧
        r = ⟨(B.cells \ A.cells) \ st.moves_made, B.count - A.count⟩ := by
  induction fuel generalizing st i j with
  | zero =>
    intro r hr
    exact Or.inl hr
  | succ fuel ih =>
    simp only [MinesweeperAI.step6_aux]
    by_cases hi : i < st.knowledge.length
    · simp only [dif_pos hi]
      by_cases hcells : (st.knowledge.get ⟨i, hi⟩).cells = ∅
      · simp only [hcells, if_true]
        exact ih st (i + 1) 0
      · simp only [hcells, if_false]
        by_cases hj : j < st.knowledge.length
        · simp only [dif_pos hj]
          split_ifs with h1 h2 h3 h4
          · exact ih st i (j + 1)
          · exact ih st i (j + 1)
          · exact ih st i (j + 1)
          · set s := st.knowledge.get ⟨i, hi⟩ with hs
            set s2 := st.knowledge.get ⟨j, hj⟩ with hs2
            set r0 : Sentence :=
              ⟨(s2.cells \ s.cells) \ st.moves_made, s2.count - s.count⟩ with hr0
            set st' : MinesweeperAI :=
              { st with knowledge := st.knowledge ++ [r0] } with hst'
            intro r hr
            obtain ⟨t, ht⟩ := (step6_aux_spec fuel st' i (j + 1)).2.2.2
            rcases ih st' i (j + 1) r hr with hin | ⟨A, B, hA, hB, hAB, hAc, hBc, hsub, hrform⟩
            · rw [hst'] at hin
              simp only [List.mem_append, List.mem_singleton] at hin
              rcases hin with hin | hin
              · exact Or.inl hin
              · refine Or.inr ⟨s, s2, ?_, ?_, fun he => h1 he.symm, hcells, h2, h3, by rw [hin]⟩
                · rw [ht, hst']
                  simp only [List.mem_append]
                  exact Or.inl (Or.inl (List.get_mem st.knowledge i hi))
                · rw [ht, hst']
                  simp only [List.mem_append]
                  exact Or.inl (Or.inl (List.get_mem st.knowledge j hj))
            · exact Or.inr ⟨A, B, hA, hB, hAB, hAc, hBc, hsub, hrform⟩
          · exact ih st i (j + 1)
        · simp only [dif_neg hj]
          exact ih st (i + 1) 0
    · simp only [dif_neg hi]
      intro r hr
      exact Or.inl hr

/-- Witness for the corrected C3 at a concrete one-sentence state. -/
theorem claim_C3_amended_witness :
    (⟨{((0 : Int), (0 : Int))}, 1⟩ : Sentence) ∈
        (⟨1, 1, ∅, ∅, ∅, [⟨{((0 : Int), (0 : Int))}, 1⟩]⟩ : MinesweeperAI).knowledge ∨
      ∃ A B : Sentence,
        A ∈ (MinesweeperAI.step6_aux 3
            ⟨1, 1, ∅, ∅, ∅, [⟨{((0 : Int), (0 : Int))}, 1⟩]⟩ 0 0).knowledge ∧
        B ∈ (MinesweeperAI.step6_aux 3
            ⟨1, 1, ∅, ∅, ∅, [⟨{((0 : Int), (0 : Int))}, 1⟩]⟩ 0 0).knowledge ∧
        A ≠ B ∧ A.cells ≠ ∅ ∧ B.cells ≠ ∅ ∧ A.cells ⊆ B.cells ∧
        (⟨{((0 : Int), (0 : Int))}, 1⟩ : Sentence) =
          ⟨(B.cells \ A.cells) \
              (⟨1, 1, ∅, ∅, ∅, [⟨{((0 : Int), (0 : Int))}, 1⟩]⟩ :
                MinesweeperAI).moves_made,
            B.count - A.count⟩ :=
  claim_C3_amended_step6_sound 3 ⟨1, 1, ∅, ∅, ∅, [⟨{((0 : Int), (0 : Int))}, 1⟩]⟩ 0 0
    ⟨{((0 : Int), (0 : Int))}, 1⟩ (by decide)

/-- C6 corrected: every append into `knowledge` is guarded by a
value-equality membership check, so the subset-inference loops and the
base phase each preserve duplicate-freeness of the list; duplicates can
appear only through the in-place mutation performed by `mark_mine` /
`mark_safe` (see the counterexample). -/
theorem claim_C6_amended_appends_guarded :
    (∀ (fuel : Nat) (st : MinesweeperAI) (i j : Nat), st.knowledge.Nodup →
      (MinesweeperAI.step6_aux fuel st i j).knowledge.Nodup) ∧
    (∀ (st : MinesweeperAI) (cell : Cell) (n : Int),
      (st.knowledge.map (fun S => S.mark_safe cell)).Nodup →
      (st.add_knowledge_base cell n).knowledge.Nodup) := by
  constructor
  · intro fuel
    induction fuel with
    | zero =>
      intro st i j h
      simpa [MinesweeperAI.step6_aux] using h
    | succ fuel ih =>
      intro st i j h
      simp only [MinesweeperAI.step6_aux]
      by_cases hi : i < st.knowledge.length
      · simp only [dif_pos hi]
        by_cases hcells : (st.knowledge.get ⟨i, hi⟩).cells = ∅
        · simp only [hcells, if_true]
          exact ih st (i + 1) 0 h
        · simp only [hcells, if_false]
          by_cases hj : j < st.knowledge.length
          · simp only [dif_pos hj]
            split_ifs with h1 h2 h3 h4
            · exact ih st i (j + 1) h
            · exact ih st i (j + 1) h
            · exact ih st i (j + 1) h
            · refine ih _ i (j + 1) ?_
              simp only [List.nodup_append, List.nodup_singleton, true_and]
              exact ⟨h, by simpa using h4⟩
            · exact ih st i (j + 1) h
          · simp only [dif_neg hj]
            exact ih st (i + 1) 0 h
      · simp only [dif_neg hi]
        exact h
  · intro st cell n h
    unfold MinesweeperAI.add_knowledge_base
    dsimp only
    split_ifs with h1 h2
    · exact h
    · exact h
    · rw [List.nodup_append]
      refine ⟨h, List.nodup_singleton _, ?_⟩
      intro a ha hb
      rw [List.mem_singleton] at hb
      subst hb
      exact h2 ha

/-- Witness for the corrected C6 at a concrete duplicate-free state. -/
theorem claim_C6_amended_witness :
    (MinesweeperAI.step6_aux 5
        ⟨2, 2, ∅, ∅, ∅, [⟨{((0 : Int), (0 : Int))}, 0⟩]⟩ 0 0).knowledge.Nodup :=
  claim_C6_amended_appends_guarded.1 5
    ⟨2, 2, ∅, ∅, ∅, [⟨{((0 : Int), (0 : Int))}, 0⟩]⟩ 0 0 (by decide)

theorem sound_mark_mine {bd : Finset Cell} {st : MinesweeperAI} {c : Cell}
    (h : Sound bd st) (hc : c ∈ bd) : Sound bd (st.mark_mine c) := by
  obtain ⟨h1, h2, h3, h4⟩ := h
  refine ⟨Finset.insert_subset_iff.mpr ⟨hc, h1⟩, h2, h3, ?_⟩
  intro S' hS'
  obtain ⟨S, hS, rfl⟩ := List.mem_map.mp hS'
  obtain ⟨hdis, hcount⟩ := h4 S hS
  by_cases hcc : c ∈ S.cells
  · have hc1 : (S.mark_mine c).cells = S.cells.erase c := by
      simp [Sentence.mark_mine, hcc]
    have hc2 : (S.mark_mine c).count = S.count - 1 := by
      simp [Sentence.mark_mine, hcc]
    constructor
    · intro x hx
      rw [hc1] at hx
      obtain ⟨hxc, hxS⟩ := Finset.mem_erase.mp hx
      obtain ⟨hm, hsf⟩ := hdis x hxS
      refine ⟨?_, hsf⟩
      simp only [MinesweeperAI.mark_mine, Finset.mem_insert, not_or]
      exact ⟨hxc, hm⟩
    · rw [hc1, hc2, Finset.erase_inter]
      have hcm : c ∈ S.cells ∩ bd := Finset.mem_inter.mpr ⟨hcc, hc⟩
      rw [Finset.card_erase_of_mem hcm]
      have hpos : 0 < (S.cells ∩ bd).card := Finset.card_pos.mpr ⟨c, hcm⟩
      omega
  · have hSS : S.mark_mine c = S := by simp [Sentence.mark_mine, hcc]
    rw [hSS]
    refine ⟨fun x hx => ?_, hcount⟩
    obtain ⟨hm, hsf⟩ := hdis x hx
    refine ⟨?_, hsf⟩
    simp only [MinesweeperAI.mark_mine, Finset.mem_insert, not_or]
    exact ⟨fun he => hcc (he ▸ hx), hm⟩

theorem sound_mark_safe {bd : Finset Cell} {st : MinesweeperAI} {c : Cell}
    (h : Sound bd st) (hc : c ∉ bd) : Sound bd (st.mark_safe c) := by
  obtain ⟨h1, h2, h3, h4⟩ := h
  refine ⟨h1, ?_, ?_, ?_⟩
  · intro x hx
    rcases Finset.mem_insert.mp hx with he | hx'
    · exact he ▸ hc
    · exact h2 x hx'
  · exact h3.trans (Finset.subset_insert c st.safes)
  · intro S' hS'
    obtain ⟨S, hS, rfl⟩ := List.mem_map.mp hS'
    obtain ⟨hdis, hcount⟩ := h4 S hS
    by_cases hcc : c ∈ S.cells
    · have hc1 : (S.mark_safe c).cells = S.cells.erase c := by
        simp [Sentence.mark_safe, hcc]
      have hc2 : (S.mark_safe c).count = S.count := by
        simp [Sentence.mark_safe, hcc]
      constructor
      · intro x hx
        rw [hc1] at hx
        obtain ⟨hxc, hxS⟩ := Finset.mem_erase.mp hx
        obtain ⟨hm, hsf⟩ := hdis x hxS
        refine ⟨hm, ?_⟩
        simp only [MinesweeperAI.mark_safe, Finset.mem_insert, not_or]
        exact ⟨hxc, hsf⟩
      · rw [hc1, hc2, Finset.erase_inter,
          Finset.erase_eq_of_not_mem (fun hmem => hc (Finset.mem_inter.mp hmem).2)]
        exact hcount
    · have hSS : S.mark_safe c = S := by simp [Sentence.mark_safe, hcc]
      rw [hSS]
      refine ⟨fun x hx => ?_, hcount⟩
      obtain ⟨hm, hsf⟩ := hdis x hx
      refine ⟨hm, ?_⟩
      simp only [MinesweeperAI.mark_safe, Finset.mem_insert, not_or]
      exact ⟨fun he => hcc (he ▸ hx), hsf⟩

theorem sound_record_move {bd : Finset Cell} {st : MinesweeperAI} {cell : Cell}
    (h : Sound bd st) (hc : cell ∉ bd) :
    Sound bd (MinesweeperAI.mark_safe
      { st with moves_made := insert cell st.moves_made } cell) := by
  obtain ⟨a1, a2, a3, a4⟩ := sound_mark_safe h hc
  exact ⟨a1, a2, Finset.insert_subset_insert cell h.2.2.1, a4⟩

theorem known_mines_subset_board {bd : Finset Cell} {S : Sentence}
    (hcount : S.count = ((S.cells ∩ bd).card : Int)) :
    ∀ x ∈ S.known_mines, x ∈ bd := by
  intro x hx
  unfold Sentence.known_mines at hx
  split_ifs at hx with hcard
  · have hsub : S.cells ∩ bd ⊆ S.cells := Finset.inter_subset_left
    have hle : S.cells.card ≤ (S.cells ∩ bd).card := by omega
    have heq : S.cells ∩ bd = S.cells :=
      Finset.eq_of_subset_of_card_le hsub hle
    have : x ∈ S.cells ∩ bd := heq.symm ▸ hx
    exact (Finset.mem_inter.mp this).2
  · exact absurd hx (Finset.not_mem_empty x)

theorem known_safes_disjoint_board {bd : Finset Cell} {S : Sentence}
    (hcount : S.count = ((S.cells ∩ bd).card : Int)) :
    ∀ x ∈ S.known_safes, x ∉ bd := by
  intro x hx hxbd
  unfold Sentence.known_safes at hx
  split_ifs at hx with hzero
  · have hcard : (S.cells ∩ bd).card = 0 := by omega
    have : x ∈ S.cells ∩ bd := Finset.mem_inter.mpr ⟨hx, hxbd⟩
    rw [Finset.card_eq_zero.mp hcard] at this
    exact Finset.not_mem_empty x this
  · exact Finset.not_mem_empty x hx

theorem sound_foldl_mark_mine {bd : Finset Cell} (m : Multiset Cell)
    {st : MinesweeperAI} (h : Sound bd st) (hm : ∀ x ∈ m, x ∈ bd) :
    Sound bd (Multiset.foldl MinesweeperAI.mark_mine st m) := by
  induction m using Multiset.induction_on generalizing st with
  | empty => exact h
  | cons a m ih =>
    rw [Multiset.foldl_cons]
    exact ih (sound_mark_mine h (hm a (Multiset.mem_cons_self a m)))
      (fun x hx => hm x (Multiset.mem_cons_of_mem hx))

theorem sound_foldl_mark_safe {bd : Finset Cell} (m : Multiset Cell)
    {st : MinesweeperAI} (h : Sound bd st) (hm : ∀ x ∈ m, x ∉ bd) :
    Sound bd (Multiset.foldl MinesweeperAI.mark_safe st m) := by
  induction m using Multiset.induction_on generalizing st with
  | empty => exact h
  | cons a m ih =>
    rw [Multiset.foldl_cons]
    exact ih (sound_mark_safe h (hm a (Multiset.mem_cons_self a m)))
      (fun x hx => hm x (Multiset.mem_cons_of_mem hx))

theorem sound_step5_at {bd : Finset Cell} {st : MinesweeperAI} (i : Nat)
    (h : Sound bd st) : Sound bd (st.step5_at i) := by
  unfold MinesweeperAI.step5_at
  rcases hk : st.knowledge[i]? with _ | s
  · simp only [hk]
    exact h
  · simp only [hk]
    have hsmem : s ∈ st.knowledge := List.getElem?_mem hk
    have hst1 : Sound bd (st.mark_mines_of s.known_mines) :=
      sound_foldl_mark_mine _ h
        (fun x hx => known_mines_subset_board (h.2.2.2 s hsmem).2 x hx)
    rcases hk1 : (st.mark_mines_of s.known_mines).knowledge[i]? with _ | s1
    · simp only [hk1]
      exact hst1
    · simp only [hk1]
      have hs1mem : s1 ∈ (st.mark_mines_of s.known_mines).knowledge :=
        List.getElem?_mem hk1
      exact sound_foldl_mark_safe _ hst1
        (fun x hx => known_safes_disjoint_board (hst1.2.2.2 s1 hs1mem).2 x hx)

theorem sound_step5 {bd : Finset Cell} {st : MinesweeperAI} (h : Sound bd st) :
    Sound bd st.step5 := by
  unfold MinesweeperAI.step5
  generalize List.range st.knowledge.length = l
  induction l generalizing st with
  | nil => exact h
  | cons i l ih =>
    rw [List.foldl_cons]
    exact ih (sound_step5_at i h)

theorem sound_step6_aux {bd : Finset Cell} (fuel : Nat) {st : MinesweeperAI}
    (i j : Nat) (h : Sound bd st) : Sound bd (MinesweeperAI.step6_aux fuel st i j) := by
  induction fuel generalizing st i j with
  | zero => exact h
  | succ fuel ih =>
    simp only [MinesweeperAI.step6_aux]
    by_cases hi : i < st.knowledge.length
    · simp only [dif_pos hi]
      by_cases hcells : (st.knowledge.get ⟨i, hi⟩).cells = ∅
      · simp only [hcells, if_true]
        exact ih (i + 1) 0 h
      · simp only [hcells, if_false]
        by_cases hj : j < st.knowledge.length
        · simp only [dif_pos hj]
          refine ih i (j + 1) ?_
          split_ifs with h1 h2 h3 h4
          · exact h
          · exact h
          · exact h
          · obtain ⟨a1, a2, a3, a4⟩ := h
            refine ⟨a1, a2, a3, ?_⟩
            intro S hS
            rcases List.mem_append.mp hS with hS | hS
            · exact a4 S hS
            · rw [List.mem_singleton] at hS
              subst hS
              have hsmem : st.knowledge.get ⟨i, hi⟩ ∈ st.knowledge :=
                List.get_mem st.knowledge i hi
              have hs2mem : st.knowledge.get ⟨j, hj⟩ ∈ st.knowledge :=
                List.get_mem st.knowledge j hj
              obtain ⟨hdis, hcount⟩ := a4 _ hsmem
              obtain ⟨hdis2, hcount2⟩ := a4 _ hs2mem
              constructor
              · intro x hx
                have hx2 : x ∈ (st.knowledge.get ⟨j, hj⟩).cells :=
                  (Finset.mem_sdiff.mp (Finset.mem_sdiff.mp hx).1).1
                exact hdis2 x hx2
              · have hmv : ((st.knowledge.get ⟨j, hj⟩).cells \
                      (st.knowledge.get ⟨i, hi⟩).cells) \ st.moves_made =
                    (st.knowledge.get ⟨j, hj⟩).cells \
                      (st.knowledge.get ⟨i, hi⟩).cells := by
                  ext x
                  simp only [Finset.mem_sdiff]
                  constructor
                  · rintro ⟨hx, _⟩
                    exact hx
                  · rintro ⟨hx2, hxs⟩
                    exact ⟨⟨hx2, hxs⟩, fun hmv => (hdis2 x hx2).2 (a3 hmv)⟩
                have hinter : ((st.knowledge.get ⟨j, hj⟩).cells \
                      (st.knowledge.get ⟨i, hi⟩).cells) ∩ bd =
                    ((st.knowledge.get ⟨j, hj⟩).cells ∩ bd) \
                      ((st.knowledge.get ⟨i, hi⟩).cells ∩ bd) := by
                  ext x
                  simp only [Finset.mem_sdiff, Finset.mem_inter]
                  constructor
                  · rintro ⟨⟨h2x, hsx⟩, hbx⟩
                    exact ⟨⟨h2x, hbx⟩, fun hc => hsx hc.1⟩
                  · rintro ⟨⟨h2x, hbx⟩, hns⟩
                    exact ⟨⟨h2x, fun hsx => hns ⟨hsx, hbx⟩⟩, hbx⟩
                have hsubI : (st.knowledge.get ⟨i, hi⟩).cells ∩ bd ⊆
                    (st.knowledge.get ⟨j, hj⟩).cells ∩ bd :=
                  Finset.inter_subset_inter h3 (Finset.Subset.refl bd)
                have hle := Finset.card_le_card hsubI
                have hcard := Finset.card_sdiff hsubI
                show (st.knowledge.get ⟨j, hj⟩).count -
                    (st.knowledge.get ⟨i, hi⟩).count = _
                rw [hmv, hinter, hcard]
                omega
          · exact h
        · simp only [dif_neg hj]
          exact ih (i + 1) 0 h
    · simp only [dif_neg hi]
      exact h

theorem sound_add_knowledge_base {bd : Finset Cell} {st : MinesweeperAI}
    {cell : Cell} {n : Int} (h : Sound bd st) (hcell : cell ∉ bd)
    (hn : n = (((neighborsOf st.height st.width cell).filter (· ∈ bd)).card : Int)) :
    Sound bd (st.add_knowledge_base cell n) := by
  have h2 := sound_record_move h hcell
  unfold MinesweeperAI.add_knowledge_base
  dsimp only
  split_ifs with hu hmem
  · exact h2
  · exact h2
  · set st2 := MinesweeperAI.mark_safe
      { st with moves_made := insert cell st.moves_made } cell with hst2
    obtain ⟨a1, a2, a3, a4⟩ := h2
    refine ⟨a1, a2, a3, ?_⟩
    intro S hS
    rcases List.mem_append.mp hS with hS | hS
    · exact a4 S hS
    · rw [List.mem_singleton] at hS
      subst hS
      constructor
      · intro x hx
        obtain ⟨hx1, hxsf⟩ := Finset.mem_sdiff.mp hx
        obtain ⟨hxN, hxm⟩ := Finset.mem_sdiff.mp hx1
        exact ⟨hxm, hxsf⟩
      · have hN : (st2.return_neighbors cell).1 =
            neighborsOf st2.height st2.width cell :=
          return_neighbors_fst_eq st2 cell
        have hn2 : n = ((((st2.return_neighbors cell).1 ∩ bd)).card : Int) := by
          rw [← Finset.filter_mem_eq_inter, hN]
          exact hn
        have hmc2 : (st2.return_neighbors cell).2 =
            (((st2.return_neighbors cell).1 ∩ st2.mines).card : Int) := by
          rw [← Finset.filter_mem_eq_inter]
          exact MinesweeperAI.return_neighbors_count st2 cell
        have hset : (((st2.return_neighbors cell).1 \ st2.mines) \ st2.safes) ∩ bd =
            ((st2.return_neighbors cell).1 ∩ bd) \
              ((st2.return_neighbors cell).1 ∩ st2.mines) := by
          ext x
          simp only [Finset.mem_sdiff, Finset.mem_inter]
          constructor
          · rintro ⟨⟨⟨hxN, hxm⟩, hxs⟩, hxb⟩
            exact ⟨⟨hxN, hxb⟩, fun hc => hxm hc.2⟩
          · rintro ⟨⟨hxN, hxb⟩, hnm⟩
            exact ⟨⟨⟨hxN, fun hm => hnm ⟨hxN, hm⟩⟩, fun hs => a2 x hs hxb⟩, hxb⟩
        have hsubm : (st2.return_neighbors cell).1 ∩ st2.mines ⊆
            (st2.return_neighbors cell).1 ∩ bd :=
          Finset.inter_subset_inter (Finset.Subset.refl _) a1
        have hle := Finset.card_le_card hsubm
        have hcard := Finset.card_sdiff hsubm
        show n - (st2.return_neighbors cell).2 = _
        rw [hset, hcard]
        omega

theorem sound_add_knowledge {bd : Finset Cell} (fuel : Nat) {st : MinesweeperAI}
    {cell : Cell} {n : Int} (h : Sound bd st) (hcell : cell ∉ bd)
    (hn : n = (((neighborsOf st.height st.width cell).filter (· ∈ bd)).card : Int)) :
    Sound bd (MinesweeperAI.add_knowledge fuel st cell n) :=
  sound_step6_aux fuel 0 0 (sound_step5 (sound_add_knowledge_base h hcell hn))

theorem sound_initAI (bd : Finset Cell) (height width : Nat) :
    Sound bd (initAI height width) := by
  refine ⟨Finset.empty_subset bd, ?_, Finset.empty_subset _, ?_⟩
  · intro c hc
    exact absurd hc (Finset.not_mem_empty c)
  · intro S hS
    exact absurd hS (List.not_mem_nil S)

/-- C4: starting from a fresh agent and feeding only observations
consistent with a board `bd` (each revealed cell is truly safe and its
count is the true number of mined neighbors), at every point between calls
`mines ∩ safes = ∅` and no sentence in `knowledge` contains a cell that is
in `mines` or in `safes`. -/
theorem claim_C4_marked_cells_invariant (bd : Finset Cell)
    (height width fuel : Nat) (obs : List (Cell × Int))
    (hobs : ∀ p ∈ obs, ConsistentObs bd height width p) :
    (runAI fuel (initAI height width) obs).mines ∩
        (runAI fuel (initAI height width) obs).safes = ∅ ∧
    ∀ S ∈ (runAI fuel (initAI height width) obs).knowledge,
      ∀ c ∈ S.cells,
        c ∉ (runAI fuel (initAI height width) obs).mines ∧
        c ∉ (runAI fuel (initAI height width) obs).safes := by
  have key : ∀ (l : List (Cell × Int)) (st : MinesweeperAI),
      Sound bd st → st.height = height → st.width = width →
      (∀ p ∈ l, ConsistentObs bd height width p) →
      Sound bd (runAI fuel st l) := by
    intro l
    induction l with
    | nil =>
      intro st hs _ _ _
      exact hs
    | cons p l ih =>
      intro st hs hh hw hl
      obtain ⟨hcp, hnp⟩ := hl p (List.mem_cons_self p l)
      simp only [runAI, List.foldl_cons]
      have hstep : Sound bd (MinesweeperAI.add_knowledge fuel st p.1 p.2) := by
        refine sound_add_knowledge fuel hs hcp ?_
        rw [hh, hw]
        exact hnp
      exact ih (MinesweeperAI.add_knowledge fuel st p.1 p.2) hstep
        (((evolves_add_knowledge fuel st p.1 p.2).1).trans hh)
        (((evolves_add_knowledge fuel st p.1 p.2).2.1).trans hw)
        (fun q hq => hl q (List.mem_cons_of_mem p hq))
  have hfin := key obs (initAI height width) (sound_initAI bd height width) rfl rfl hobs
  obtain ⟨b1, b2, _, b4⟩ := hfin
  constructor
  · rw [Finset.eq_empty_iff_forall_not_mem]
    intro x hx
    obtain ⟨hxm, hxs⟩ := Finset.mem_inter.mp hx
    exact b2 x hxs (b1 hxm)
  · intro S hS c hc
    exact (b4 S hS).1 c hc

/-- Witness for C4: the consistent four-call run on the 2x3 board with the
single mine `(0,1)`. -/
theorem claim_C4_witness :
    (runAI 200 (initAI 2 3) [(((1 : Int), (0 : Int)), 1), (((1 : Int), (2 : Int)), 1),
        (((1 : Int), (1 : Int)), 1), (((1 : Int), (0 : Int)), 1)]).mines ∩
      (runAI 200 (initAI 2 3) [(((1 : Int), (0 : Int)), 1), (((1 : Int), (2 : Int)), 1),
        (((1 : Int), (1 : Int)), 1), (((1 : Int), (0 : Int)), 1)]).safes = ∅ ∧
    ∀ S ∈ (runAI 200 (initAI 2 3) [(((1 : Int), (0 : Int)), 1), (((1 : Int), (2 : Int)), 1),
        (((1 : Int), (1 : Int)), 1), (((1 : Int), (0 : Int)), 1)]).knowledge,
      ∀ c ∈ S.cells,
        c ∉ (runAI 200 (initAI 2 3) [(((1 : Int), (0 : Int)), 1), (((1 : Int), (2 : Int)), 1),
          (((1 : Int), (1 : Int)), 1), (((1 : Int), (0 : Int)), 1)]).mines ∧
        c ∉ (runAI 200 (initAI 2 3) [(((1 : Int), (0 : Int)), 1), (((1 : Int), (2 : Int)), 1),
          (((1 : Int), (1 : Int)), 1), (((1 : Int), (0 : Int)), 1)]).safes :=
  claim_C4_marked_cells_invariant {((0 : Int), (1 : Int))} 2 3 200
    [(((1 : Int), (0 : Int)), 1), (((1 : Int), (2 : Int)), 1),
      (((1 : Int), (1 : Int)), 1), (((1 : Int), (0 : Int)), 1)]
    (by decide)
